import Mathlib

/-!
Verification of the audio playback and spectrum-analysis core of a
terminal music player (sources: src/audio/player.rs, src/audio/spectrum.rs).

Shallow embedding conventions:
* Rust f32/f64 values are modelled as exact rationals.
* Rust std::time::Duration is modelled as a natural number of nanoseconds
  (Duration is unsigned; arithmetic on it saturates or panics exactly as
  encoded below).  Duration::as_secs is truncating division by 10^9.
* The atomic counters and mutex-guarded buffers are modelled as plain
  fields of a state record; every operation is a pure state transformer
  (single-threaded interleaving of the source's critical sections).
* Transcendental float computations delegated to std / external crates
  (cos in the Hann window, rustfft's FFT, Complex::norm, log10, powf,
  sqrt) have no exact rational counterpart; they enter the model as
  parameters of the analyzer, and theorems assume only properties that
  are true of the real functions, such as nonnegativity of a complex
  norm or that the DFT of the zero vector is zero.
-/

set_option maxRecDepth 8000

namespace AuricTui



/-- Number of FFT bins (src/audio/spectrum.rs, const FFT_SIZE). -/
def FFT_SIZE : Nat := 2048

/-- Number of output bars for display (src/audio/spectrum.rs, const NUM_BARS). -/
def NUM_BARS : Nat := 32

/-- Smoothing factor for bar decay (src/audio/spectrum.rs, const SMOOTHING). -/
def SMOOTHING : ℚ := 7/10

/-- First half of the FFT output, the positive-frequency bins
(`let half = FFT_SIZE / 2` in SpectrumAnalyzer::analyze). -/
def HALF : Nat := FFT_SIZE / 2

/-- Ring buffer for collecting audio samples
(src/audio/spectrum.rs, struct SampleBuffer). -/
structure SampleBuffer where
  samples : List ℚ
  write_pos : Nat
deriving DecidableEq

/-- SampleBuffer::new — FFT_SIZE zeros, cursor at 0. -/
def SampleBuffer.new : SampleBuffer :=
  { samples := List.replicate FFT_SIZE 0, write_pos := 0 }

/-- SampleBuffer::push — overwrite the slot at the cursor, advance modulo
FFT_SIZE. -/
def SampleBuffer.push (b : SampleBuffer) (sample : ℚ) : SampleBuffer :=
  { samples := b.samples.set b.write_pos sample,
    write_pos := (b.write_pos + 1) % FFT_SIZE }

/-- SampleBuffer::get_samples — read FFT_SIZE samples starting at the write
cursor, wrapping (oldest first).  Rust indexes `self.samples[idx]` with
`idx < FFT_SIZE = len`; `getD _ 0` is that same read under the
well-formedness invariant below. -/
def SampleBuffer.get_samples (b : SampleBuffer) : List ℚ :=
  (List.range FFT_SIZE).map fun i => b.samples.getD ((b.write_pos + i) % FFT_SIZE) 0

/-- Pushing a whole list of samples in order (a sequence of push() calls). -/
def SampleBuffer.pushList (b : SampleBuffer) (xs : List ℚ) : SampleBuffer :=
  xs.foldl SampleBuffer.push b

/-- Representation invariant of the ring buffer: the backing vector has
length FFT_SIZE and the cursor is in range.  `vec![0.0; FFT_SIZE]`
establishes it and push preserves it. -/
def SampleBuffer.Wf (b : SampleBuffer) : Prop :=
  b.samples.length = FFT_SIZE ∧ b.write_pos < FFT_SIZE

/-- Shared spectrum data (src/audio/spectrum.rs, struct SharedSpectrum):
a bars vector and the sample ring buffer.  The two mutexes are modelled
by plain fields (single-threaded interleaving of critical sections). -/
structure SharedSpectrum where
  bars : List ℚ
  sample_buffer : SampleBuffer
deriving DecidableEq

/-- SharedSpectrum::new — NUM_BARS zero bars, fresh sample buffer. -/
def SharedSpectrum.new : SharedSpectrum :=
  { bars := List.replicate NUM_BARS 0, sample_buffer := SampleBuffer.new }

/-- SharedSpectrum::push_sample — push into the ring buffer; bars untouched. -/
def SharedSpectrum.push_sample (s : SharedSpectrum) (x : ℚ) : SharedSpectrum :=
  { s with sample_buffer := s.sample_buffer.push x }

/-- SharedSpectrum::clear — `bars.fill(0.0)`; the sample buffer is not
touched. -/
def SharedSpectrum.clear (s : SharedSpectrum) : SharedSpectrum :=
  { s with bars := s.bars.map fun _ => 0 }

/-- PlaybackState (src/audio/player.rs). -/
inductive PlaybackState where
  | Stopped
  | Playing
  | Paused
deriving DecidableEq

/-- The observable state of AudioPlayer (src/audio/player.rs, struct
AudioPlayer).  Durations are in nanoseconds (Rust std::time::Duration);
`position_secs` is the AtomicU64 of whole elapsed seconds.  The rodio
sink is external; `sink_seek_request` records the position last handed
to `sink.try_seek` (None after the sink is freshly created). -/
structure AudioPlayer where
  state : PlaybackState
  volume : ℚ
  current_path : Option String
  position_secs : Nat
  is_playing : Bool
  duration : Nat
  spectrum : SharedSpectrum
  sink_seek_request : Option Nat
deriving DecidableEq

/-- Nanoseconds per second, for Duration::as_secs / as_secs_f64. -/
def NANOS : Nat := 1000000000

/-- Duration::as_secs — truncating division. -/
def durationAsSecs (d : Nat) : Nat := d / NANOS

/-- Duration::as_secs_f64 — exact value as a rational. -/
def durationAsSecsQ (d : Nat) : ℚ := (d : ℚ) / (NANOS : ℚ)

/-- AudioPlayer::position — Duration::from_secs(self.position_secs.load()),
expressed in nanoseconds. -/
def AudioPlayer.position (p : AudioPlayer) : Nat := p.position_secs * NANOS

/-- AudioPlayer::progress — 0.0 when duration.as_secs() == 0, otherwise
position().as_secs_f64() / duration.as_secs_f64().  Note that
position().as_secs_f64() equals position_secs exactly. -/
def AudioPlayer.progress (p : AudioPlayer) : ℚ :=
  if durationAsSecs p.duration = 0 then 0
  else (p.position_secs : ℚ) / durationAsSecsQ p.duration

/-- AudioPlayer::stop — clear and recreate the sink, go to Stopped, clear
path, zero position, duration and the is_playing flag, clear the
spectrum bars. -/
def AudioPlayer.stop (p : AudioPlayer) : AudioPlayer :=
  { p with state := PlaybackState.Stopped,
           current_path := none,
           position_secs := 0,
           is_playing := false,
           duration := 0,
           spectrum := p.spectrum.clear,
           sink_seek_request := none }

/-- AudioPlayer::play, success path — stop first, then enqueue the decoded
source, record the caller-supplied duration and go to Playing.  (The
decoder can fail, in which case the player is left in the stopped state;
this models the Ok branch.) -/
def AudioPlayer.play (p : AudioPlayer) (path : String) (dur : Nat) : AudioPlayer :=
  { p.stop with duration := dur,
                state := PlaybackState.Playing,
                current_path := some path,
                is_playing := true }

/-- AudioPlayer::pause — only from Playing; otherwise nothing happens. -/
def AudioPlayer.pause (p : AudioPlayer) : AudioPlayer :=
  if p.state = PlaybackState.Playing then
    { p with state := PlaybackState.Paused, is_playing := false }
  else p

/-- AudioPlayer::resume — only from Paused; otherwise nothing happens. -/
def AudioPlayer.resume (p : AudioPlayer) : AudioPlayer :=
  if p.state = PlaybackState.Paused then
    { p with state := PlaybackState.Playing, is_playing := true }
  else p

/-- AudioPlayer::toggle_pause. -/
def AudioPlayer.toggle_pause (p : AudioPlayer) : AudioPlayer :=
  match p.state with
  | PlaybackState.Playing => p.pause
  | PlaybackState.Paused => p.resume
  | PlaybackState.Stopped => p

/-- AudioPlayer::seek — hand the position to sink.try_seek.  A failed seek
only emits an informational event; either way no player field other than
the sink request changes. -/
def AudioPlayer.seek (p : AudioPlayer) (pos : Nat) : AudioPlayer :=
  { p with sink_seek_request := some pos }

/-- AudioPlayer::seek_forward — seek only when position() + amount is
strictly below the duration; otherwise do nothing. -/
def AudioPlayer.seek_forward (p : AudioPlayer) (amount : Nat) : AudioPlayer :=
  if p.position + amount < p.duration then p.seek (p.position + amount) else p

/-- AudioPlayer::seek_backward — Duration::saturating_sub, which is
truncated subtraction on nanoseconds. -/
def AudioPlayer.seek_backward (p : AudioPlayer) (amount : Nat) : AudioPlayer :=
  p.seek (p.position - amount)

/-- f32::clamp as used in set_volume (Rust clamp: low if below, high if
above, the value itself otherwise). -/
def rustClamp (v lo hi : ℚ) : ℚ :=
  if v < lo then lo else if v > hi then hi else v

/-- AudioPlayer::set_volume — store clamp(v, 0, 1) and apply it to the
sink. -/
def AudioPlayer.set_volume (p : AudioPlayer) (v : ℚ) : AudioPlayer :=
  { p with volume := rustClamp v 0 1 }

/-- AudioPlayer::volume_up — a +0.05 step routed through set_volume. -/
def AudioPlayer.volume_up (p : AudioPlayer) : AudioPlayer :=
  p.set_volume (p.volume + 1/20)

/-- AudioPlayer::volume_down — a −0.05 step routed through set_volume. -/
def AudioPlayer.volume_down (p : AudioPlayer) : AudioPlayer :=
  p.set_volume (p.volume - 1/20)

/-- Wrapper source that tracks position and feeds the spectrum
(src/audio/player.rs, struct PositionTrackingSource).  The inner rodio
source is a sequence of samples consumed front to back; samples are
rationals (the f32 conversion for the spectrum tap is the identity in
this model since both sides are exact rationals). -/
structure PositionTrackingSource where
  source : List ℚ
  position_secs : Nat
  samples_played : Nat
  sample_rate : Nat
  channels : Nat
  spectrum : SharedSpectrum
  channel_idx : Nat
deriving DecidableEq

/-- PositionTrackingSource::next (Iterator::next): pull one sample from the
inner source (None ends the stream), bump the counter, tap channel 0
into the spectrum buffer, rotate the channel index, store the elapsed
seconds on whole-second boundaries, and yield the original sample. -/
def PositionTrackingSource.next (st : PositionTrackingSource) :
    Option (ℚ × PositionTrackingSource) :=
  match st.source with
  | [] => none
  | x :: rest =>
    let played := st.samples_played + 1
    let spec := if st.channel_idx = 0 then st.spectrum.push_sample x else st.spectrum
    let cidx := (st.channel_idx + 1) % st.channels
    let sps := st.sample_rate * st.channels
    let pos := if played % sps = 0 then played / sps else st.position_secs
    some (x, { source := rest,
               position_secs := pos,
               samples_played := played,
               sample_rate := st.sample_rate,
               channels := st.channels,
               spectrum := spec,
               channel_idx := cidx })

/-- Drive the wrapper for up to n iterator steps and collect the samples it
yields (the sequence the sink receives). -/
def PositionTrackingSource.run (n : Nat) (st : PositionTrackingSource) : List ℚ :=
  match n with
  | 0 => []
  | n + 1 =>
    match st.next with
    | none => []
    | some (x, st2) => x :: PositionTrackingSource.run n st2

/-- The irrational-valued float computations the analyzer delegates to
std and to the rustfft crate.  They have no exact rational counterpart,
so they are parameters of the pipeline; theorems assume of them only
facts that hold of the real functions (e.g. a complex norm is
nonnegative and the DFT of the zero vector is zero).
* window i  — the Hann table entry 0.5 * (1 − cos(2 * PI * i / (FFT_SIZE − 1)))
* fft       — FftPlanner::plan_fft_forward(FFT_SIZE).process, in place on a
              length-FFT_SIZE complex vector (re, im)
* norm      — Complex::norm, sqrt(re^2 + im^2)
* log10     — f32::log10 on a strictly positive argument
* bar_to_freq i — SpectrumAnalyzer::bar_to_freq(i, NUM_BARS)
                  = 20 * (20000 / 20)^(i / NUM_BARS)
* sqrt_fft_size — (FFT_SIZE as f32).sqrt() -/
structure FloatOps where
  window : Nat → ℚ
  fft : List (ℚ × ℚ) → List (ℚ × ℚ)
  norm : ℚ × ℚ → ℚ
  log10 : ℚ → ℚ
  bar_to_freq : Nat → ℚ
  sqrt_fft_size : ℚ

/-- Apply the Hann window: zip the samples with the window table and make
complex values with zero imaginary part. -/
def windowedOf (ops : FloatOps) (samples : List ℚ) : List (ℚ × ℚ) :=
  samples.enum.map fun p => (p.2 * ops.window p.1, 0)

/-- Magnitudes of the first FFT_SIZE/2 bins: |c| / sqrt(FFT_SIZE).  The FFT
output always has length FFT_SIZE (in-place processing), so the default
of getD is never used on real runs. -/
def magnitudesOf (ops : FloatOps) (fftOut : List (ℚ × ℚ)) : List ℚ :=
  (List.range HALF).map fun i => ops.norm (fftOut.getD i (0, 0)) / ops.sqrt_fft_size

/-- Frequency to FFT bin index: `(freq * FFT_SIZE as f32 / 44100.0) as usize`.
The float-to-usize `as` cast truncates toward zero and saturates below
at 0, which on rationals is floor followed by Int.toNat. -/
def binOf (f : ℚ) : Nat := (Int.floor (f * (FFT_SIZE : ℚ) / 44100)).toNat

/-- One display bar: average the magnitudes over the bar's bin range when
the range is sane, else leave the initial 0. -/
def rawBar (ops : FloatOps) (mags : List ℚ) (i : Nat) : ℚ :=
  let low_bin := binOf (ops.bar_to_freq i)
  let high_bin := min (binOf (ops.bar_to_freq (i + 1))) (HALF - 1)
  if low_bin < HALF ∧ low_bin ≤ high_bin then
    ((List.range (high_bin - low_bin + 1)).map fun j => mags.getD (low_bin + j) 0).sum
      / ((high_bin - low_bin + 1 : Nat) : ℚ)
  else 0

/-- The NUM_BARS averaged bar magnitudes. -/
def rawBars (ops : FloatOps) (mags : List ℚ) : List ℚ :=
  (List.range NUM_BARS).map (rawBar ops mags)

/-- Logarithmic scaling of one bar: only a strictly positive magnitude is
converted to dB and clamped; zero stays zero. -/
def scaleBar (ops : FloatOps) (b : ℚ) : ℚ :=
  if b > 0 then rustClamp ((20 * ops.log10 b + 60) / 60) 0 1 else b

/-- Asymmetric temporal smoothing of one bar: instant attack, slow decay
(src/audio/spectrum.rs lines 132–141). -/
def smoothStep (o n : ℚ) : ℚ :=
  if n > o then n else o * SMOOTHING + n * (1 - SMOOTHING)

/-- The smoothing pass over all bars (both lists have length NUM_BARS). -/
def smoothAll (old bars : List ℚ) : List ℚ :=
  List.zipWith smoothStep old bars

/-- The state of SpectrumAnalyzer that persists across analyze() calls. -/
structure SpectrumAnalyzer where
  smoothed_bars : List ℚ
deriving DecidableEq

/-- SpectrumAnalyzer::new — smoothed bars start at zero. -/
def SpectrumAnalyzer.new : SpectrumAnalyzer :=
  { smoothed_bars := List.replicate NUM_BARS 0 }

/-- SpectrumAnalyzer::analyze — copy the ring buffer, window, FFT,
magnitudes, log-frequency bucketing, dB scaling, smoothing; returns the
smoothed bars and the updated analyzer state. -/
def SpectrumAnalyzer.analyze (ops : FloatOps) (st : SpectrumAnalyzer)
    (buf : SampleBuffer) : List ℚ × SpectrumAnalyzer :=
  let samples := buf.get_samples
  let windowed := windowedOf ops samples
  let fftOut := ops.fft windowed
  let mags := magnitudesOf ops fftOut
  let bars := rawBars ops mags
  let scaled := bars.map (scaleBar ops)
  let sm := smoothAll st.smoothed_bars scaled
  (sm, { smoothed_bars := sm })

/-- A freshly constructed player (AudioPlayer::new) at half volume. -/
def examplePlayer : AudioPlayer :=
  { state := PlaybackState.Stopped,
    volume := 1/2,
    current_path := none,
    position_secs := 0,
    is_playing := false,
    duration := 0,
    spectrum := SharedSpectrum.new,
    sink_seek_request := none }

/-- A player one second into a two-second track. -/
def halfwayPlayer : AudioPlayer :=
  { examplePlayer with state := PlaybackState.Playing,
                       is_playing := true,
                       current_path := some "track.flac",
                       position_secs := 1,
                       duration := 2000000000 }

/-- A player on a track whose caller-supplied duration is below one
second (800 ms). -/
def subSecondPlayer : AudioPlayer :=
  { examplePlayer with state := PlaybackState.Playing,
                       is_playing := true,
                       current_path := some "sting.wav",
                       duration := 800000000 }

/-- A player whose position counter has passed the caller-supplied
duration: two seconds of samples were played although the tag metadata
reported a one-second track. -/
def overrunPlayer : AudioPlayer :=
  { examplePlayer with state := PlaybackState.Playing,
                       is_playing := true,
                       current_path := some "track.mp3",
                       position_secs := 2,
                       duration := 1000000000 }

/-- A player one second into a ten-second track, for seek witnesses. -/
def seekPlayer : AudioPlayer :=
  { examplePlayer with state := PlaybackState.Playing,
                       is_playing := true,
                       current_path := some "song.ogg",
                       position_secs := 1,
                       duration := 10000000000 }

/-- A player at zero volume. -/
def zeroVolumePlayer : AudioPlayer :=
  { examplePlayer with volume := 0 }

/-- A concrete instantiation of the external float operations, used by the
witnesses: any functions with the properties the theorems assume
(nonnegative norm mapping zero to zero, a zero-preserving linear map as
the FFT, a positive square root) will do. -/
def demoOps : FloatOps :=
  { window := fun _ => 1,
    fft := fun l => l,
    norm := fun c => |c.1| + |c.2|,
    log10 := fun _ => 0,
    bar_to_freq := fun i => 20 * (i + 1),
    sqrt_fft_size := 45 }

/-- A tracking source over a short two-channel stream. -/
def exampleSource : PositionTrackingSource :=
  { source := [1/4, 1/2, 3/4, 1],
    position_secs := 0,
    samples_played := 0,
    sample_rate := 44100,
    channels := 2,
    spectrum := SharedSpectrum.new,
    channel_idx := 0 }

theorem SampleBuffer.new_wf : SampleBuffer.new.Wf := by
  constructor
  · show (List.replicate FFT_SIZE (0:ℚ)).length = FFT_SIZE
    exact List.length_replicate _ _
  · show 0 < FFT_SIZE
    norm_num [FFT_SIZE]

theorem SampleBuffer.push_wf (b : SampleBuffer) (x : ℚ) (h : b.Wf) :
    (b.push x).Wf := by
  obtain ⟨h1, h2⟩ := h
  constructor
  · simpa [SampleBuffer.push] using h1
  · have : 0 < FFT_SIZE := by simp [FFT_SIZE]
    exact Nat.mod_lt _ this

theorem SampleBuffer.length_get_samples (b : SampleBuffer) :
    b.get_samples.length = FFT_SIZE := by
  simp [SampleBuffer.get_samples]

theorem SampleBuffer.get_samples_new :
    SampleBuffer.new.get_samples = List.replicate FFT_SIZE 0 := by
  rw [List.eq_replicate_iff]
  refine ⟨SampleBuffer.length_get_samples _, ?_⟩
  intro x hx
  simp only [SampleBuffer.get_samples, SampleBuffer.new, List.mem_map,
    List.mem_range] at hx
  obtain ⟨i, _, hi⟩ := hx
  rw [List.getD_eq_getElem?_getD, List.getElem?_replicate] at hi
  split at hi <;> simpa using hi.symm

theorem getD_set_ne (l : List ℚ) (i j : Nat) (x : ℚ) (h : i ≠ j) :
    (l.set i x).getD j 0 = l.getD j 0 := by
  rw [List.getD_eq_getElem?_getD, List.getD_eq_getElem?_getD, List.getElem?_set_ne h]

theorem getD_set_self (l : List ℚ) (i : Nat) (x : ℚ) (h : i < l.length) :
    (l.set i x).getD i 0 = x := by
  rw [List.getD_eq_getElem?_getD, List.getElem?_set_self h]
  rfl

theorem SampleBuffer.getElem_get_samples (b : SampleBuffer) (n : Nat)
    (hn : n < b.get_samples.length) :
    b.get_samples[n] = b.samples.getD ((b.write_pos + n) % FFT_SIZE) 0 := by
  simp [SampleBuffer.get_samples]

/-- One push shifts the chronological view left by one and appends the new
sample at the (newest) end. -/
theorem SampleBuffer.get_samples_push (b : SampleBuffer) (x : ℚ) (h : b.Wf) :
    (b.push x).get_samples = b.get_samples.drop 1 ++ [x] := by
  obtain ⟨hlen, hpos⟩ := h
  have h2048 : FFT_SIZE = 2048 := rfl
  have hflen : 0 < FFT_SIZE := by omega
  apply List.ext_getElem
  · rw [SampleBuffer.length_get_samples, List.length_append, List.length_drop,
      SampleBuffer.length_get_samples, List.length_singleton]
    omega
  · intro n h1 h2
    have hn : n < FFT_SIZE := by
      rwa [SampleBuffer.length_get_samples] at h1
    rw [SampleBuffer.getElem_get_samples _ _ h1]
    simp only [SampleBuffer.push]
    by_cases hcase : n < FFT_SIZE - 1
    · have hdl : n < (List.drop 1 b.get_samples).length := by
        rw [List.length_drop, SampleBuffer.length_get_samples]
        omega
      rw [List.getElem_append_left hdl, List.getElem_drop,
        SampleBuffer.getElem_get_samples]
      have hidx : ((b.write_pos + 1) % FFT_SIZE + n) % FFT_SIZE
          = (b.write_pos + (1 + n)) % FFT_SIZE := by
        rw [Nat.mod_add_mod]
        congr 1
        omega
      rw [hidx]
      apply getD_set_ne
      rw [h2048] at hpos hcase ⊢
      omega
    · have hn1 : n = FFT_SIZE - 1 := by omega
      have hdl : (List.drop 1 b.get_samples).length ≤ n := by
        rw [List.length_drop, SampleBuffer.length_get_samples]
        omega
      rw [List.getElem_append_right hdl]
      have hidx : ((b.write_pos + 1) % FFT_SIZE + n) % FFT_SIZE = b.write_pos := by
        rw [Nat.mod_add_mod]
        rw [h2048] at hpos hn1 ⊢
        omega
      rw [hidx]
      have hxl : (List.drop 1 b.get_samples).length = n := by
        rw [List.length_drop, SampleBuffer.length_get_samples]
        omega
      simp only [hxl, Nat.sub_self, List.getElem_cons_zero]
      apply getD_set_self
      rw [hlen]
      exact hpos

theorem SampleBuffer.pushList_wf (xs : List ℚ) (b : SampleBuffer) (h : b.Wf) :
    (b.pushList xs).Wf := by
  induction xs generalizing b with
  | nil => exact h
  | cons x xs ih => exact ih _ (b.push_wf x h)

/-- After pushing the list xs onto a well-formed buffer, the chronological
view is the last FFT_SIZE elements of (old view ++ xs). -/
theorem SampleBuffer.get_samples_pushList (xs : List ℚ) (b : SampleBuffer)
    (h : b.Wf) :
    (b.pushList xs).get_samples = (b.get_samples ++ xs).drop xs.length := by
  induction xs generalizing b with
  | nil => simp [SampleBuffer.pushList]
  | cons x xs ih =>
    have hb : (b.push x).Wf := b.push_wf x h
    have step : (b.pushList (x :: xs)) = (b.push x).pushList xs := rfl
    rw [step, ih _ hb, SampleBuffer.get_samples_push b x h]
    have hg : 1 ≤ b.get_samples.length := by
      rw [SampleBuffer.length_get_samples]
      norm_num [FFT_SIZE]
    calc (b.get_samples.drop 1 ++ [x] ++ xs).drop xs.length
        = ((b.get_samples.drop 1 ++ (x :: xs))).drop xs.length := by
          rw [List.append_assoc]
          rfl
      _ = (b.get_samples ++ (x :: xs)).drop (xs.length + 1) := by
          rw [show xs.length + 1 = 1 + xs.length by omega, ← List.drop_drop,
            List.drop_append_of_le_length hg]
      _ = (b.get_samples ++ x :: xs).drop (x :: xs).length := by
          simp

theorem getD_nonneg (l : List ℚ) (h : ∀ x ∈ l, 0 ≤ x) (i : Nat) :
    0 ≤ l.getD i 0 := by
  rw [List.getD_eq_getElem?_getD]
  cases hq : l[i]? with
  | none => simp
  | some v =>
    obtain ⟨hlt, hv⟩ := List.getElem?_eq_some.mp hq
    simp only [Option.getD_some]
    exact hv ▸ h _ (List.getElem_mem hlt)

theorem getD_replicate_self {α : Type} (a : α) (n i : Nat) :
    (List.replicate n a).getD i a = a := by
  rw [List.getD_eq_getElem?_getD, List.getElem?_replicate]
  split <;> rfl

theorem rustClamp_unit (v : ℚ) : 0 ≤ rustClamp v 0 1 ∧ rustClamp v 0 1 ≤ 1 := by
  unfold rustClamp
  split
  · norm_num
  · split
    · norm_num
    · constructor <;> linarith [le_of_not_lt (by assumption : ¬ v < 0),
        le_of_not_lt (by assumption : ¬ v > 1)]

theorem scaleBar_zero (ops : FloatOps) : scaleBar ops 0 = 0 := by
  simp [scaleBar]

theorem scaleBar_unit (ops : FloatOps) (b : ℚ) (h : 0 ≤ b) :
    0 ≤ scaleBar ops b ∧ scaleBar ops b ≤ 1 := by
  unfold scaleBar
  split
  · exact rustClamp_unit _
  · have hb : b = 0 := le_antisymm (le_of_not_lt (by assumption)) h
    rw [hb]
    norm_num

theorem magnitudesOf_nonneg (ops : FloatOps) (fftOut : List (ℚ × ℚ))
    (hn : ∀ c, 0 ≤ ops.norm c) (hs : 0 ≤ ops.sqrt_fft_size) :
    ∀ x ∈ magnitudesOf ops fftOut, 0 ≤ x := by
  intro x hx
  simp only [magnitudesOf, List.mem_map, List.mem_range] at hx
  obtain ⟨i, _, hi⟩ := hx
  rw [← hi]
  exact div_nonneg (hn _) hs

theorem magnitudesOf_length (ops : FloatOps) (fftOut : List (ℚ × ℚ)) :
    (magnitudesOf ops fftOut).length = HALF := by
  simp [magnitudesOf]

theorem rawBar_nonneg (ops : FloatOps) (mags : List ℚ) (i : Nat)
    (h : ∀ x ∈ mags, 0 ≤ x) : 0 ≤ rawBar ops mags i := by
  unfold rawBar
  dsimp only
  split
  · apply div_nonneg
    · apply List.sum_nonneg
      intro x hx
      simp only [List.mem_map, List.mem_range] at hx
      obtain ⟨j, _, hj⟩ := hx
      rw [← hj]
      exact getD_nonneg mags h _
    · exact_mod_cast Nat.cast_nonneg _
  · exact le_refl 0

theorem rawBars_length (ops : FloatOps) (mags : List ℚ) :
    (rawBars ops mags).length = NUM_BARS := by
  simp [rawBars]

theorem rawBars_nonneg (ops : FloatOps) (mags : List ℚ)
    (h : ∀ x ∈ mags, 0 ≤ x) : ∀ x ∈ rawBars ops mags, 0 ≤ x := by
  intro x hx
  simp only [rawBars, List.mem_map, List.mem_range] at hx
  obtain ⟨i, _, hi⟩ := hx
  rw [← hi]
  exact rawBar_nonneg ops mags i h

theorem smoothAll_length (old bars : List ℚ) :
    (smoothAll old bars).length = min old.length bars.length := by
  simp [smoothAll]

theorem smoothAll_mem {P : ℚ → Prop} (old bars : List ℚ)
    (h : ∀ o ∈ old, ∀ n ∈ bars, P (smoothStep o n)) :
    ∀ x ∈ smoothAll old bars, P x := by
  induction old generalizing bars with
  | nil => simp [smoothAll]
  | cons o os ih =>
    cases bars with
    | nil => simp [smoothAll]
    | cons b bs =>
      intro x hx
      simp only [smoothAll, List.zipWith_cons_cons, List.mem_cons] at hx
      rcases hx with hx | hx
      · rw [hx]
        exact h o (by simp) b (by simp)
      · exact ih bs (fun o2 ho2 n2 hn2 => h o2 (by simp [ho2]) n2 (by simp [hn2])) x hx

theorem smoothStep_unit (o n : ℚ) (ho0 : 0 ≤ o) (ho1 : o ≤ 1)
    (hn0 : 0 ≤ n) (hn1 : n ≤ 1) : 0 ≤ smoothStep o n ∧ smoothStep o n ≤ 1 := by
  unfold smoothStep SMOOTHING
  split
  · exact ⟨hn0, hn1⟩
  · constructor <;> nlinarith

theorem smoothStep_nonneg (o n : ℚ) (ho0 : 0 ≤ o) (hn0 : 0 ≤ n) :
    0 ≤ smoothStep o n := by
  unfold smoothStep SMOOTHING
  split
  · exact hn0
  · nlinarith

/-- The scaled (pre-smoothing) bars of any analyze() call lie in [0,1]. -/
theorem scaled_bars_unit (ops : FloatOps) (mags : List ℚ)
    (hm : ∀ x ∈ mags, 0 ≤ x) :
    ∀ x ∈ (rawBars ops mags).map (scaleBar ops), 0 ≤ x ∧ x ≤ 1 := by
  intro x hx
  simp only [List.mem_map] at hx
  obtain ⟨b, hb, hbx⟩ := hx
  rw [← hbx]
  exact scaleBar_unit ops b (rawBars_nonneg ops mags hm b hb)

theorem windowedOf_silent (ops : FloatOps) (samples : List ℚ)
    (hz : ∀ x ∈ samples, x = 0) :
    windowedOf ops samples = List.replicate samples.length ((0:ℚ), (0:ℚ)) := by
  apply List.ext_getElem
  · simp [windowedOf]
  · intro n h1 h2
    have hns : n < samples.length := by simpa [windowedOf] using h1
    simp only [windowedOf, List.getElem_map, List.getElem_enum,
      List.getElem_replicate]
    have h0 : samples[n] = 0 := hz _ (List.getElem_mem hns)
    simp [h0]

theorem magnitudesOf_silent (ops : FloatOps) (hn0 : ops.norm (0, 0) = 0) :
    magnitudesOf ops (List.replicate FFT_SIZE ((0:ℚ), (0:ℚ)))
      = List.replicate HALF 0 := by
  apply List.ext_getElem
  · simp [magnitudesOf]
  · intro n h1 h2
    simp only [magnitudesOf, List.getElem_map, List.getElem_range,
      List.getElem_replicate]
    rw [getD_replicate_self, hn0, zero_div]

theorem rawBar_silent (ops : FloatOps) (i : Nat) :
    rawBar ops (List.replicate HALF (0:ℚ)) i = 0 := by
  unfold rawBar
  dsimp only
  split
  · have hmap : ∀ j ∈ List.range
        (binOf (ops.bar_to_freq (i + 1)) ⊓ (HALF - 1) - binOf (ops.bar_to_freq i) + 1),
        (List.replicate HALF (0:ℚ)).getD (binOf (ops.bar_to_freq i) + j) 0 = 0 := by
      intro j _
      exact getD_replicate_self 0 HALF _
    rw [List.map_congr_left hmap]
    simp
  · rfl

theorem rawBars_silent (ops : FloatOps) :
    rawBars ops (List.replicate HALF 0) = List.replicate NUM_BARS 0 := by
  rw [List.eq_replicate_iff]
  refine ⟨rawBars_length _ _, ?_⟩
  intro x hx
  simp only [rawBars, List.mem_map, List.mem_range] at hx
  obtain ⟨i, _, hi⟩ := hx
  rw [← hi]
  exact rawBar_silent ops i

theorem smoothAll_silent (old : List ℚ) (hnn : ∀ x ∈ old, 0 ≤ x) :
    smoothAll old (List.replicate old.length 0)
      = old.map (fun b => b * SMOOTHING) := by
  induction old with
  | nil => rfl
  | cons o os ih =>
    have ho : 0 ≤ o := hnn o (by simp)
    simp only [List.length_cons, List.replicate_succ, smoothAll,
      List.zipWith_cons_cons, List.map_cons]
    have h1 : smoothStep o 0 = o * SMOOTHING := by
      unfold smoothStep
      rw [if_neg (not_lt.mpr ho)]
      ring
    have h2 := ih fun x hx => hnn x (by simp [hx])
    rw [h1, show List.zipWith smoothStep os (List.replicate os.length 0)
      = smoothAll os (List.replicate os.length 0) from rfl, h2]

/-- analyze() unfolded to its pipeline stages. -/
theorem analyze_fst_eq (ops : FloatOps) (st : SpectrumAnalyzer)
    (buf : SampleBuffer) :
    (SpectrumAnalyzer.analyze ops st buf).1
      = smoothAll st.smoothed_bars
          ((rawBars ops
            (magnitudesOf ops (ops.fft (windowedOf ops buf.get_samples)))).map
            (scaleBar ops)) := rfl

theorem analyze_snd_eq (ops : FloatOps) (st : SpectrumAnalyzer)
    (buf : SampleBuffer) :
    (SpectrumAnalyzer.analyze ops st buf).2.smoothed_bars
      = (SpectrumAnalyzer.analyze ops st buf).1 := rfl

theorem analyze_length (ops : FloatOps) (st : SpectrumAnalyzer)
    (buf : SampleBuffer) (hl : st.smoothed_bars.length = NUM_BARS) :
    (SpectrumAnalyzer.analyze ops st buf).1.length = NUM_BARS := by
  rw [analyze_fst_eq, smoothAll_length, hl, List.length_map, rawBars_length]
  simp

theorem analyze_unit (ops : FloatOps) (st : SpectrumAnalyzer)
    (buf : SampleBuffer) (hn : ∀ c, 0 ≤ ops.norm c)
    (hs : 0 ≤ ops.sqrt_fft_size)
    (hst : ∀ x ∈ st.smoothed_bars, 0 ≤ x ∧ x ≤ 1) :
    ∀ x ∈ (SpectrumAnalyzer.analyze ops st buf).1, 0 ≤ x ∧ x ≤ 1 := by
  rw [analyze_fst_eq]
  apply smoothAll_mem
  intro o ho n hn2
  have hsc := scaled_bars_unit ops _ (magnitudesOf_nonneg ops _ hn hs) n hn2
  exact smoothStep_unit o n (hst o ho).1 (hst o ho).2 hsc.1 hsc.2

theorem analyze_nonneg (ops : FloatOps) (st : SpectrumAnalyzer)
    (buf : SampleBuffer) (hn : ∀ c, 0 ≤ ops.norm c)
    (hs : 0 ≤ ops.sqrt_fft_size)
    (hst : ∀ x ∈ st.smoothed_bars, 0 ≤ x) :
    ∀ x ∈ (SpectrumAnalyzer.analyze ops st buf).1, 0 ≤ x := by
  rw [analyze_fst_eq]
  apply smoothAll_mem
  intro o ho n hn2
  have hsc := scaled_bars_unit ops _ (magnitudesOf_nonneg ops _ hn hs) n hn2
  exact smoothStep_nonneg o n (hst o ho) hsc.1

/-- analyze() on an all-silent buffer is one decay step of the stored
smoothed bars. -/
theorem analyze_silent (ops : FloatOps) (st : SpectrumAnalyzer)
    (buf : SampleBuffer) (hn0 : ops.norm (0, 0) = 0)
    (hz : ops.fft (List.replicate FFT_SIZE ((0:ℚ), (0:ℚ)))
            = List.replicate FFT_SIZE ((0:ℚ), (0:ℚ)))
    (hb : ∀ x ∈ buf.get_samples, x = 0)
    (hl : st.smoothed_bars.length = NUM_BARS)
    (hnn : ∀ x ∈ st.smoothed_bars, 0 ≤ x) :
    (SpectrumAnalyzer.analyze ops st buf).1
      = st.smoothed_bars.map (fun b => b * SMOOTHING) := by
  rw [analyze_fst_eq, windowedOf_silent ops _ hb,
    SampleBuffer.length_get_samples, hz, magnitudesOf_silent ops hn0,
    rawBars_silent, List.map_replicate, scaleBar_zero, ← hl,
    smoothAll_silent _ hnn]

theorem PositionTrackingSource.next_none_iff (st : PositionTrackingSource) :
    st.next = none ↔ st.source = [] := by
  cases hs : st.source <;> simp [PositionTrackingSource.next, hs]

theorem PositionTrackingSource.run_eq_source (n : Nat)
    (st : PositionTrackingSource) (h : st.source.length ≤ n) :
    PositionTrackingSource.run n st = st.source := by
  induction n generalizing st with
  | zero =>
    have hs : st.source = [] := List.length_eq_zero.mp (Nat.le_zero.mp h)
    simp [PositionTrackingSource.run, hs]
  | succ n ih =>
    cases hs : st.source with
    | nil => simp [PositionTrackingSource.run, PositionTrackingSource.next, hs]
    | cons x rest =>
      have hr : rest.length ≤ n := by
        rw [hs] at h
        simpa using h
      simp only [PositionTrackingSource.run, PositionTrackingSource.next, hs]
      rw [ih _ hr]

/-- C1 counterexample: progress() is not always in [0.0, 1.0].  In the
concrete player state overrunPlayer — two seconds of samples played on a
track whose caller-supplied duration is one second, a state the position
tracker reaches whenever tag metadata understates the stream length —
progress() evaluates to 2, strictly above 1: AudioPlayer::progress
divides without clamping. -/
theorem C1_progress_counterexample : 1 < overrunPlayer.progress := by
  norm_num [overrunPlayer, examplePlayer, AudioPlayer.progress,
    durationAsSecs, durationAsSecsQ, NANOS]

/-- C1 (amended): progress() returns exactly 0.0 whenever duration() is
zero (no division by zero), and lies in [0.0, 1.0] for every player
state in which position() does not exceed duration(); when the position
counter passes the caller-supplied duration, progress() exceeds 1 (the
quotient is not clamped). -/
theorem C1_progress_amended (p : AudioPlayer) :
    (p.duration = 0 → p.progress = 0) ∧
    (p.position ≤ p.duration → 0 ≤ p.progress ∧ p.progress ≤ 1) := by
  constructor
  · intro h
    simp [AudioPlayer.progress, durationAsSecs, h]
  · intro h
    unfold AudioPlayer.progress
    split
    · norm_num
    · rename_i hd
      have hdn : NANOS ≤ p.duration := by
        unfold durationAsSecs at hd
        by_contra hlt
        push_neg at hlt
        rw [Nat.div_eq_of_lt hlt] at hd
        exact hd rfl
      have hnp : (0:ℚ) < (NANOS : ℚ) := by
        unfold NANOS
        norm_num
      have hq : 0 < durationAsSecsQ p.duration := by
        unfold durationAsSecsQ
        apply div_pos _ hnp
        have : 0 < p.duration := by
          unfold NANOS at hdn
          omega
        exact_mod_cast this
      constructor
      · exact div_nonneg (by positivity) (le_of_lt hq)
      · rw [div_le_one hq]
        unfold AudioPlayer.position at h
        unfold durationAsSecsQ
        rw [le_div_iff₀ hnp]
        exact_mod_cast h

/-- C1 witness: a player one second into a two-second track has progress
between 0 and 1. -/
theorem C1_progress_amended_witness :
    0 ≤ halfwayPlayer.progress ∧ halfwayPlayer.progress ≤ 1 :=
  (C1_progress_amended halfwayPlayer).2 (by decide)

/-- C10: for a loaded track whose duration is nonzero but strictly below
one second, progress() returns exactly 0 although duration() is nonzero,
because the guard tests duration.as_secs() — the whole-second part —
rather than the duration itself. -/
theorem C10_subsecond_progress (p : AudioPlayer)
    (h1 : 0 < p.duration) (h2 : p.duration < NANOS) :
    p.progress = 0 ∧ p.duration ≠ 0 := by
  refine ⟨?_, by omega⟩
  unfold AudioPlayer.progress durationAsSecs
  rw [if_pos (Nat.div_eq_of_lt h2)]

/-- C10 witness: the 800 ms track has progress 0 and nonzero duration. -/
theorem C10_subsecond_progress_witness :
    subSecondPlayer.progress = 0 ∧ subSecondPlayer.duration ≠ 0 :=
  C10_subsecond_progress subSecondPlayer (by decide) (by decide)

/-- C3: the playback state machine.  A successful play() always lands in
Playing; pause() moves Playing to Paused; resume() moves Paused to
Playing; stop() from any state yields Stopped with position() = 0 and
duration() = 0; pause() when not Playing, resume() when not Paused and
toggle_pause() when Stopped leave the whole player unchanged. -/
theorem C3_state_machine (p : AudioPlayer) (path : String) (d : Nat) :
    (p.play path d).state = PlaybackState.Playing ∧
    (p.state = PlaybackState.Playing → (p.pause).state = PlaybackState.Paused) ∧
    (p.state = PlaybackState.Paused → (p.resume).state = PlaybackState.Playing) ∧
    (p.stop).state = PlaybackState.Stopped ∧
    (p.stop).position_secs = 0 ∧
    (p.stop).duration = 0 ∧
    (p.state ≠ PlaybackState.Playing → p.pause = p) ∧
    (p.state ≠ PlaybackState.Paused → p.resume = p) ∧
    (p.state = PlaybackState.Stopped → p.toggle_pause = p) := by
  refine ⟨rfl, ?_, ?_, rfl, rfl, rfl, ?_, ?_, ?_⟩
  · intro h
    rw [AudioPlayer.pause, if_pos h]
  · intro h
    rw [AudioPlayer.resume, if_pos h]
  · intro h
    rw [AudioPlayer.pause, if_neg h]
  · intro h
    rw [AudioPlayer.resume, if_neg h]
  · intro h
    rw [AudioPlayer.toggle_pause, h]

/-- C3 witness: on the stopped example player, toggle_pause is the
identity (and the other transitions were applied at the same input). -/
theorem C3_state_machine_witness :
    examplePlayer.toggle_pause = examplePlayer :=
  (C3_state_machine examplePlayer "track.flac" 0).2.2.2.2.2.2.2.2 rfl

/-- C4: seek_forward only ever hands the sink a target strictly below
duration() and is a complete no-op when position() + amount reaches or
passes the duration; seek_backward hands the sink the Duration
saturating difference, which is the integer difference truncated at
zero and in particular never negative. -/
theorem C4_seek_bounds (p : AudioPlayer) (amount : Nat) :
    (p.duration ≤ p.position + amount → p.seek_forward amount = p) ∧
    (p.position + amount < p.duration →
      (p.seek_forward amount).sink_seek_request = some (p.position + amount)) ∧
    (∀ t, (p.seek_forward amount).sink_seek_request = some t →
      p.sink_seek_request = some t ∨ t < p.duration) ∧
    (p.seek_backward amount).sink_seek_request = some (p.position - amount) ∧
    p.position - amount = ((p.position : ℤ) - (amount : ℤ)).toNat := by
  refine ⟨?_, ?_, ?_, rfl, by omega⟩
  · intro h
    rw [AudioPlayer.seek_forward, if_neg (by omega)]
  · intro h
    rw [AudioPlayer.seek_forward, if_pos h]
    rfl
  · intro t ht
    by_cases hc : p.position + amount < p.duration
    · right
      rw [AudioPlayer.seek_forward, if_pos hc] at ht
      have : p.position + amount = t := by
        simpa [AudioPlayer.seek] using ht
      omega
    · left
      rwa [AudioPlayer.seek_forward, if_neg hc] at ht

/-- C4 witness: one second into a ten-second track, seeking forward by one
second requests exactly the two-second mark from the sink. -/
theorem C4_seek_bounds_witness :
    (seekPlayer.seek_forward 1000000000).sink_seek_request
      = some (seekPlayer.position + 1000000000) :=
  (C4_seek_bounds seekPlayer 1000000000).2.1 (by decide)

/-- C7: stop() zeroes every element of the spectrum bars vector (keeping
its length) and leaves the sample ring buffer — contents and write
cursor — exactly as it was. -/
theorem C7_stop_spectrum (p : AudioPlayer) :
    (p.stop).spectrum.bars = List.replicate p.spectrum.bars.length 0 ∧
    (p.stop).spectrum.sample_buffer = p.spectrum.sample_buffer ∧
    (p.stop).spectrum.sample_buffer.samples = p.spectrum.sample_buffer.samples ∧
    (p.stop).spectrum.sample_buffer.write_pos = p.spectrum.sample_buffer.write_pos := by
  refine ⟨?_, rfl, rfl, rfl⟩
  show (p.spectrum.bars.map fun _ => 0) = List.replicate p.spectrum.bars.length 0
  rw [List.eq_replicate_iff]
  constructor
  · simp
  · intro x hx
    simp only [List.mem_map] at hx
    obtain ⟨a, _, ha⟩ := hx
    exact ha.symm

/-- Each volume_up step from volume k/20 lands on volume (k+n)/20 while
that stays at most 1. -/
theorem volume_up_iterate (n : Nat) : ∀ (p : AudioPlayer) (k : Nat),
    p.volume = (k : ℚ)/20 → k + n ≤ 20 →
    (AudioPlayer.volume_up^[n] p).volume = ((k + n : Nat) : ℚ)/20 := by
  induction n with
  | zero =>
    intro p k h _
    simpa using h
  | succ n ih =>
    intro p k h hkn
    rw [Function.iterate_succ_apply]
    have hstep : (p.volume_up).volume = ((k + 1 : Nat) : ℚ)/20 := by
      show rustClamp (p.volume + 1/20) 0 1 = ((k + 1 : Nat) : ℚ)/20
      rw [h]
      unfold rustClamp
      rw [if_neg (by push_neg; positivity), if_neg ?_]
      · push_cast
        ring
      · push_neg
        rw [div_add_div_same, div_le_one (by norm_num)]
        have : (k : ℚ) ≤ 19 := by
          have : k ≤ 19 := by omega
          exact_mod_cast this
        linarith
    have := ih (p.volume_up) (k + 1) hstep (by omega)
    rw [this]
    congr 1
    push_cast
    ring

/-- Once the stored volume is exactly 1, any number of further volume_up
calls keeps it at exactly 1. -/
theorem volume_up_saturated (n : Nat) : ∀ (p : AudioPlayer),
    p.volume = 1 → (AudioPlayer.volume_up^[n] p).volume = 1 := by
  induction n with
  | zero =>
    intro p h
    simpa using h
  | succ n ih =>
    intro p h
    rw [Function.iterate_succ_apply]
    apply ih
    show rustClamp (p.volume + 1/20) 0 1 = 1
    rw [h]
    unfold rustClamp
    rw [if_neg (by norm_num), if_pos (by norm_num)]

/-- C9: set_volume stores exactly clamp(v, 0, 1), so the stored volume is
always in [0,1]; 20 volume_up steps from volume 0 land on exactly 1, and
any further volume_up calls keep it at exactly 1. -/
theorem C9_volume (p : AudioPlayer) (v : ℚ) :
    (p.set_volume v).volume = rustClamp v 0 1 ∧
    (0 ≤ (p.set_volume v).volume ∧ (p.set_volume v).volume ≤ 1) ∧
    (p.volume = 0 → (AudioPlayer.volume_up^[20] p).volume = 1) ∧
    (p.volume = 0 → ∀ n : Nat,
      (AudioPlayer.volume_up^[n] (AudioPlayer.volume_up^[20] p)).volume = 1) := by
  have h20 : p.volume = 0 → (AudioPlayer.volume_up^[20] p).volume = 1 := by
    intro h
    have := volume_up_iterate 20 p 0 (by simpa using h) (by omega)
    simpa using this
  refine ⟨rfl, rustClamp_unit v, h20, ?_⟩
  intro h n
  exact volume_up_saturated n _ (h20 h)

/-- C9 witness: from the zero-volume player, 20 volume_up calls yield
exactly 1, and five further calls keep it at 1. -/
theorem C9_volume_witness :
    (AudioPlayer.volume_up^[20] zeroVolumePlayer).volume = 1 ∧
    (AudioPlayer.volume_up^[5] (AudioPlayer.volume_up^[20] zeroVolumePlayer)).volume = 1 :=
  ⟨(C9_volume zeroVolumePlayer 0).2.2.1 rfl,
   (C9_volume zeroVolumePlayer 0).2.2.2 rfl 5⟩

theorem new_get_samples_zero : ∀ x ∈ SampleBuffer.new.get_samples, x = 0 := by
  rw [SampleBuffer.get_samples_new]
  intro x hx
  exact List.eq_of_mem_replicate hx

/-- C2: from a freshly created SampleBuffer, any sequence of push() calls
leaves get_samples() returning exactly FFT_SIZE samples, equal to the
last FFT_SIZE entries of (initial zero-fill ++ pushed samples) in
chronological order; in particular, after pushing N < FFT_SIZE samples
the first FFT_SIZE − N returned entries are the zero-fill and the last N
are the pushed samples in push order. -/
theorem C2_ring_buffer (xs : List ℚ) :
    (SampleBuffer.new.pushList xs).get_samples.length = FFT_SIZE ∧
    (SampleBuffer.new.pushList xs).get_samples
      = (List.replicate FFT_SIZE 0 ++ xs).drop xs.length ∧
    (xs.length < FFT_SIZE →
      (SampleBuffer.new.pushList xs).get_samples
        = List.replicate (FFT_SIZE - xs.length) 0 ++ xs) := by
  have hmain : (SampleBuffer.new.pushList xs).get_samples
      = (List.replicate FFT_SIZE (0:ℚ) ++ xs).drop xs.length := by
    rw [SampleBuffer.get_samples_pushList xs SampleBuffer.new SampleBuffer.new_wf,
      SampleBuffer.get_samples_new]
  refine ⟨SampleBuffer.length_get_samples _, hmain, ?_⟩
  intro hlt
  rw [hmain, List.drop_append_of_le_length (by rw [List.length_replicate]; omega),
    List.drop_replicate]

/-- C2 witness: pushing three samples leaves 2045 zeros followed by the
three samples, in order. -/
theorem C2_ring_buffer_witness :
    (SampleBuffer.new.pushList [1/4, 1/2, 3/4]).get_samples
      = List.replicate (FFT_SIZE - 3) 0 ++ [1/4, 1/2, 3/4] := by
  have h := (C2_ring_buffer [1/4, 1/2, 3/4]).2.2 (by norm_num [FFT_SIZE])
  simpa using h

/-- C5: the temporal smoothing in analyze() is asymmetric — a value above
the stored one is adopted immediately, otherwise the stored value decays
to stored * 0.7 + new * 0.3 — and consequently an analyze() call on an
all-silent buffer returns exactly the previous call's bars scaled by
0.7. -/
theorem C5_smoothing_decay (ops : FloatOps) (st : SpectrumAnalyzer)
    (buf1 buf2 : SampleBuffer)
    (hn : ∀ c, 0 ≤ ops.norm c) (hn0 : ops.norm (0, 0) = 0)
    (hs : 0 ≤ ops.sqrt_fft_size)
    (hz : ops.fft (List.replicate FFT_SIZE ((0:ℚ), (0:ℚ)))
            = List.replicate FFT_SIZE ((0:ℚ), (0:ℚ)))
    (hl : st.smoothed_bars.length = NUM_BARS)
    (hst : ∀ x ∈ st.smoothed_bars, 0 ≤ x)
    (hb2 : ∀ x ∈ buf2.get_samples, x = 0) :
    (∀ o n : ℚ, smoothStep o n = if o < n then n else o * (7/10) + n * (3/10)) ∧
    (SpectrumAnalyzer.analyze ops (SpectrumAnalyzer.analyze ops st buf1).2 buf2).1
      = (SpectrumAnalyzer.analyze ops st buf1).1.map (fun b => b * (7/10)) := by
  constructor
  · intro o n
    unfold smoothStep SMOOTHING
    simp only [gt_iff_lt]
    split
    · rfl
    · norm_num
  · have hl1 : (SpectrumAnalyzer.analyze ops st buf1).2.smoothed_bars.length
        = NUM_BARS := by
      rw [analyze_snd_eq]
      exact analyze_length ops st buf1 hl
    have hst1 : ∀ x ∈ (SpectrumAnalyzer.analyze ops st buf1).2.smoothed_bars,
        0 ≤ x := by
      rw [analyze_snd_eq]
      exact analyze_nonneg ops st buf1 hn hs hst
    have := analyze_silent ops (SpectrumAnalyzer.analyze ops st buf1).2 buf2
      hn0 hz hb2 hl1 hst1
    rw [this, analyze_snd_eq]
    rfl

/-- C5 witness: with the demo float operations and a fresh analyzer, the
second analyze() on the (still silent) fresh buffer equals the first
call's bars scaled by 0.7. -/
theorem C5_smoothing_decay_witness :
    (SpectrumAnalyzer.analyze demoOps
        (SpectrumAnalyzer.analyze demoOps SpectrumAnalyzer.new SampleBuffer.new).2
        SampleBuffer.new).1
      = (SpectrumAnalyzer.analyze demoOps SpectrumAnalyzer.new SampleBuffer.new).1.map
          (fun b => b * (7/10)) :=
  (C5_smoothing_decay demoOps SpectrumAnalyzer.new SampleBuffer.new SampleBuffer.new
    (fun c => add_nonneg (abs_nonneg _) (abs_nonneg _))
    (by norm_num [demoOps])
    (by norm_num [demoOps])
    rfl
    (by simp [SpectrumAnalyzer.new])
    (by simp [SpectrumAnalyzer.new])
    new_get_samples_zero).2

/-- C6: analyze() is total and safe in every playback state: it returns
exactly NUM_BARS values, each in [0,1]; the stored smoothed bars equal
the returned ones (so the [0,1] invariant is maintained across calls);
the dB conversion maps a zero magnitude to zero (log10 touches only
strictly positive values); and every bar's high bin index is capped
below FFT_SIZE/2, so bucketing reads only the first half of the
magnitudes. -/
theorem C6_analyze_safe (ops : FloatOps) (st : SpectrumAnalyzer)
    (buf : SampleBuffer)
    (hn : ∀ c, 0 ≤ ops.norm c) (hs : 0 ≤ ops.sqrt_fft_size)
    (hl : st.smoothed_bars.length = NUM_BARS)
    (hst : ∀ x ∈ st.smoothed_bars, 0 ≤ x ∧ x ≤ 1) :
    (SpectrumAnalyzer.analyze ops st buf).1.length = NUM_BARS ∧
    (∀ x ∈ (SpectrumAnalyzer.analyze ops st buf).1, 0 ≤ x ∧ x ≤ 1) ∧
    (SpectrumAnalyzer.analyze ops st buf).2.smoothed_bars
      = (SpectrumAnalyzer.analyze ops st buf).1 ∧
    scaleBar ops 0 = 0 ∧
    (∀ i, min (binOf (ops.bar_to_freq (i + 1))) (HALF - 1) < HALF) := by
  refine ⟨analyze_length ops st buf hl, analyze_unit ops st buf hn hs hst,
    analyze_snd_eq ops st buf, scaleBar_zero ops, ?_⟩
  intro i
  have h1 : min (binOf (ops.bar_to_freq (i + 1))) (HALF - 1) ≤ HALF - 1 :=
    min_le_right _ _
  have h2 : HALF - 1 < HALF := by
    norm_num [HALF, FFT_SIZE]
  omega

/-- C6 witness: with the demo float operations, a fresh analyzer and a
fresh buffer, analyze() returns 32 values in [0,1]. -/
theorem C6_analyze_safe_witness :
    (SpectrumAnalyzer.analyze demoOps SpectrumAnalyzer.new SampleBuffer.new).1.length
        = NUM_BARS ∧
    ∀ x ∈ (SpectrumAnalyzer.analyze demoOps SpectrumAnalyzer.new SampleBuffer.new).1,
      0 ≤ x ∧ x ≤ 1 := by
  have h := C6_analyze_safe demoOps SpectrumAnalyzer.new SampleBuffer.new
    (fun c => add_nonneg (abs_nonneg _) (abs_nonneg _))
    (by norm_num [demoOps])
    (by simp [SpectrumAnalyzer.new])
    (by simp [SpectrumAnalyzer.new])
  exact ⟨h.1, h.2.1⟩

/-- C8: PositionTrackingSource is transparent for playback: driven for at
least as many steps as the inner source has samples, it yields exactly
the inner source's sample sequence — no sample is altered, dropped or
reordered by the position-counter and spectrum side effects — and it
terminates (next returns None) exactly when the inner source is
exhausted. -/
theorem C8_transparent (st : PositionTrackingSource) (n : Nat)
    (h : st.source.length ≤ n) :
    PositionTrackingSource.run n st = st.source ∧
    (st.next = none ↔ st.source = []) :=
  ⟨PositionTrackingSource.run_eq_source n st h,
   PositionTrackingSource.next_none_iff st⟩

/-- C8 witness: the example two-channel source passes its four samples
through unchanged. -/
theorem C8_transparent_witness :
    PositionTrackingSource.run 4 exampleSource = exampleSource.source :=
  (C8_transparent exampleSource 4 (by norm_num [exampleSource])).1

end AuricTui

